import Mathlib

/-!
Verification of the chapter extraction and deduplication pipeline of easym4b
(src/easym4b/main.py): title normalization, chapter deduplication, job
numbering, metadata construction and the batch dispatch as observed by `main`.
-/

namespace EasyM4b

/-- Python's `\s` character class restricted to ASCII, as used by
`re.sub(r'\s*\([^)]*\)', ...)` and `str.strip()` on the ASCII titles handled
here: space, tab, newline, carriage return, vertical tab, form feed. -/
def pySpace (c : Char) : Bool :=
  c = ' ' || c = '\t' || c = '\n' || c = '\r' || c = '\x0b' || c = '\x0c'

/-- One attempted match of the regex `\s*\([^)]*\)` anchored at the head of
`l`: greedily consume whitespace, require `'('`, greedily consume characters
other than `')'`, require `')'`.  Returns the remainder after the match. -/
def tryMatch (l : List Char) : Option (List Char) :=
  match l.dropWhile pySpace with
  | c :: rs =>
    if c = '(' then
      match rs.dropWhile (· != ')') with
      | d :: tail => if d = ')' then some tail else none
      | [] => none
    else none
  | [] => none

/-- `re.sub(r'\s*\([^)]*\)', '', ·)` on a character list: scan left to right,
delete each leftmost non-overlapping match, keep everything else.  Structural
recursion on a fuel bound; every match consumes at least two characters, so
fuel `l.length` (see `subAll`) is always enough. -/
def subAllFuel : Nat → List Char → List Char
  | 0, l => l
  | _ + 1, [] => []
  | n + 1, c :: cs =>
    match tryMatch (c :: cs) with
    | some tail => subAllFuel n tail
    | none => c :: subAllFuel n cs

/-- `re.sub(r'\s*\([^)]*\)', '', l)`. -/
def subAll (l : List Char) : List Char := subAllFuel l.length l

/-- Python `str.strip()` on a character list: drop leading and trailing
whitespace. -/
def pyStrip (l : List Char) : List Char :=
  ((l.dropWhile pySpace).reverse.dropWhile pySpace).reverse

/-- `clean_chapter_title` (src/easym4b/main.py:63-65):
`re.sub(r'\s*\([^)]*\)', '', title).strip()`. -/
def clean_chapter_title (title : String) : String :=
  ⟨pyStrip (subAll title.data)⟩

/-- A raw chapter entry as returned by ffprobe and consumed by `main`
(src/easym4b/main.py:88-94): `start_time` and `end_time` are parsed with
`float(...)` (modelled exactly as rationals), `tags` is the chapter's tag
dictionary (modelled as an association list; a chapter without a `tags` dict
is the empty list). -/
structure Chapter where
  start_time : Rat
  end_time : Rat
  tags : List (String × String)
deriving DecidableEq, Repr

/-- Zero-padded decimal rendering, Python `f"{n:0{w}d}"` for `n ≥ 0`: the
decimal digits of `n`, left-padded with `'0'` to at least width `w`. -/
def padNum (w n : Nat) : String :=
  ⟨List.replicate (w - (toString n).length) '0'⟩ ++ toString n

/-- The resolved raw title of the chapter at 0-based index `i`
(src/easym4b/main.py:93): `chapter.get('tags', {}).get('title', f'Chapter_{i+1:03d}')`. -/
def getTitle (i : Nat) (c : Chapter) : String :=
  (c.tags.lookup "title").getD ("Chapter_" ++ padNum 3 (i + 1))

/-- One entry of `deduped_chapters` (src/easym4b/main.py:98,100): the tuple
`(i, start_time, end_time, title)` with `i` the chapter's 0-based index in the
raw chapter list and `title` its resolved raw title. -/
structure DChap where
  idx : Nat
  start_time : Rat
  end_time : Rat
  title : String
deriving DecidableEq, Repr

/-- The selection loop of `main` (src/easym4b/main.py:91-102): walk the
chapters from index `i` with the set `seen` of already-processed normalized
titles; when `deduplicate` is set, keep a chapter iff its cleaned title is
non-empty (Python truthiness) and not yet seen, recording it; otherwise keep
every chapter. -/
def mainLoop (dedup : Bool) (seen : List String) (i : Nat) :
    List Chapter → List DChap
  | [] => []
  | c :: cs =>
    let title := getTitle i c
    let ct := clean_chapter_title title
    if dedup then
      if ct ≠ "" ∧ ct ∉ seen then
        ⟨i, c.start_time, c.end_time, title⟩ :: mainLoop dedup (ct :: seen) (i + 1) cs
      else
        mainLoop dedup seen (i + 1) cs
    else
      ⟨i, c.start_time, c.end_time, title⟩ :: mainLoop dedup seen (i + 1) cs

/-- `deduped_chapters` as built by `main` from the raw chapter list
(src/easym4b/main.py:88-102): the loop starts with an empty `processed_titles`
set at index 0. -/
def dedupeChapters (dedup : Bool) (chapters : List Chapter) : List DChap :=
  mainLoop dedup [] 0 chapters

/-- The identity pass that only resolves fallback titles: every chapter is
kept, with its raw title resolved by `getTitle`. -/
def resolveAll (i : Nat) : List Chapter → List DChap
  | [] => []
  | c :: cs => ⟨i, c.start_time, c.end_time, getTitle i c⟩ :: resolveAll (i + 1) cs

/-- `num_digits = math.ceil(math.log10(len(deduped_chapters) + 1))`
(src/easym4b/main.py:104), on the mathematical reals: `Nat.clog 10 (n + 1)`
is exactly `⌈log₁₀ (n + 1)⌉` for the natural number `n + 1 ≥ 1`. -/
def mainNumDigits (survivors : List DChap) : Nat :=
  Nat.clog 10 (survivors.length + 1)

/-- `numbered_title = f"{i+1:0{num_digits}d} - {title}"`
(src/easym4b/main.py:107) for the survivor at 0-based position `i`. -/
def numberedTitle (numDigits i : Nat) (title : String) : String :=
  padNum numDigits (i + 1) ++ " - " ++ title

/-- The numbered display titles of the whole batch
(src/easym4b/main.py:104-107): the pad width is computed once from the
survivor count and applied to every survivor. -/
def numberedTitles (survivors : List DChap) : List String :=
  survivors.enum.map (fun p => numberedTitle (mainNumDigits survivors) p.1 p.2.title)

/-- A concrete batch of nine chapters with distinct titles, used to check the
padding width at the 9-survivor boundary. -/
def chapters9 : List Chapter :=
  [⟨0, 1, [("title", "T1")]⟩, ⟨1, 2, [("title", "T2")]⟩, ⟨2, 3, [("title", "T3")]⟩,
   ⟨3, 4, [("title", "T4")]⟩, ⟨4, 5, [("title", "T5")]⟩, ⟨5, 6, [("title", "T6")]⟩,
   ⟨6, 7, [("title", "T7")]⟩, ⟨7, 8, [("title", "T8")]⟩, ⟨8, 9, [("title", "T9")]⟩]

/-- The export format chosen on the CLI (`--format`, one of mp3, wav, m4a,
m4b). -/
inductive Format where
  | mp3 | wav | m4a | m4b
deriving DecidableEq, Repr

/-- Insertion into a Python `dict` (modelled as an association list without
duplicate keys): an existing key has its value overwritten in place, a new key
is appended.  Both a duplicated key in a `dict` literal and `dict.update`
follow this rule. -/
def pyInsert (d : List (String × String)) (k v : String) : List (String × String) :=
  if d.any (fun p => p.1 = k) then
    d.map (fun p => if p.1 = k then (k, v) else p)
  else
    d ++ [(k, v)]

/-- The `output_args` dictionary built by `process_chapter`
(src/easym4b/main.py:28-56): the literal inserts `ar` and then the key
`metadata` three times (title, artist, album — later entries overwrite
earlier ones), then the per-format codec keys are added with `update`, and
`c:v` is added when the source has a cover stream. -/
def outputArgs (format : Format) (chapter_title : String)
    (global_metadata : List (String × String)) (sample_rate : Nat)
    (hasCover : Bool) : List (String × String) :=
  let d := pyInsert [] "ar" (toString sample_rate)
  let d := pyInsert d "metadata" ("title=" ++ chapter_title)
  let d := pyInsert d "metadata" ("artist=" ++ ((global_metadata.lookup "artist").getD ""))
  let d := pyInsert d "metadata" ("album=" ++ ((global_metadata.lookup "album").getD ""))
  let d :=
    match format with
    | .mp3 => pyInsert (pyInsert (pyInsert d "acodec" "libmp3lame") "ab" "128k") "q" "2"
    | .m4a => pyInsert (pyInsert d "acodec" "aac") "b:a" "128k"
    | .m4b => pyInsert (pyInsert d "acodec" "aac") "b:a" "128k"
    | .wav => pyInsert d "acodec" "pcm_s16le"
  if hasCover then pyInsert d "c:v" "copy" else d

/-- What one run of `main` past its precondition checks produces, as far as
the caller can observe (src/easym4b/main.py:76-123). -/
structure MainOutcome where
  /-- The lines printed with `click.echo`, in order. -/
  echoed : List String
  /-- The per-job outcome of each `process_chapter` call dispatched through
  `executor.map`: every submitted job runs to completion or exception inside
  the pool, independently of its siblings. -/
  executed : List (Except String Unit)
  /-- The job failures `main` gathers from the pool.  The source never binds
  or iterates the result of `executor.map(process_chapter, chapter_args)`
  (src/easym4b/main.py:117-118), so exceptions stay inside the discarded
  futures and nothing is ever collected or returned. -/
  collectedFailures : List String

/-- `main` (src/easym4b/main.py:76-123) with the extraction engine injected:
precondition checks (no chapters / output folder already exists) echo a
message and return early; otherwise the dedup loop, the numbering and the
pool dispatch run, and the summary lines are printed from the raw and the
surviving chapter counts — never from the jobs' outcomes. -/
def runMain (chapters : List Chapter) (output_folder : String)
    (folderExists : Bool) (dedup : Bool)
    (extract : DChap → Except String Unit) : MainOutcome :=
  if chapters.length = 0 then
    ⟨["No chapter information found in the M4B file."], [], []⟩
  else if folderExists then
    ⟨["Warning: Output folder \x27" ++ output_folder ++ "\x27 already exists."], [], []⟩
  else
    let survivors := dedupeChapters dedup chapters
    let results := survivors.map extract
    ⟨["Successfully processed " ++ toString chapters.length ++ " chapters."] ++
      (if dedup then
        ["After deduplication, " ++ toString survivors.length ++
          " unique chapters remain in " ++ output_folder]
      else
        ["All " ++ toString survivors.length ++ " chapters saved to " ++ output_folder]),
     results, []⟩

/-- Rebuild a `Chapter` from a surviving `deduped_chapters` entry: the entry's
resolved raw title becomes the chapter's explicit title tag.  This is the
spec's view of `dedupe` as `chapters -> chapters` (§4.2), used to state the
round-trip property `dedupe(dedupe(chapters, true), true)`. -/
def toChapter (d : DChap) : Chapter :=
  ⟨d.start_time, d.end_time, [("title", d.title)]⟩

/-- The spec's `dedupe(chapters, enabled)` (§4.2): the survivor entries of the
selection loop, read back as chapters. -/
def dedupe (enabled : Bool) (chapters : List Chapter) : List Chapter :=
  (dedupeChapters enabled chapters).map toChapter

/-- The normalized (cleaned) title of the chapter at list position `m` when
the loop numbers chapters from base index `i`: position `m` carries the
0-based chapter index `i + m`, which also feeds the fallback title. -/
def cleanAtFrom (i : Nat) (l : List Chapter) (m : Nat) : String :=
  clean_chapter_title (getTitle (i + m) ((l.get? m).getD ⟨0, 0, []⟩))

/-- The number of jobs in `outcome.executed` that succeeded. -/
def countOk (l : List (Except String Unit)) : Nat :=
  (l.filter (fun r => match r with | .ok _ => true | .error _ => false)).length

/-- The number of jobs in `outcome.executed` that raised. -/
def countErr (l : List (Except String Unit)) : Nat :=
  (l.filter (fun r => match r with | .ok _ => false | .error _ => true)).length

theorem subAllFuel_nil (n : Nat) : subAllFuel n [] = [] := by
  cases n <;> rfl

theorem subAllFuel_cons (n : Nat) (c : Char) (cs : List Char) :
    subAllFuel (n + 1) (c :: cs) =
      match tryMatch (c :: cs) with
      | some tail => subAllFuel n tail
      | none => c :: subAllFuel n cs := rfl

/-- A successful regex match consumes the matched span: the remainder is a
sublist of the input. -/
theorem tryMatch_sublist {l t : List Char} (h : tryMatch l = some t) :
    List.Sublist t l := by
  unfold tryMatch at h
  cases h1 : l.dropWhile pySpace with
  | nil => rw [h1] at h; exact absurd h (by simp)
  | cons c rs =>
    rw [h1] at h
    simp only at h
    split at h
    · cases h2 : rs.dropWhile (· != ')') with
      | nil => rw [h2] at h; exact absurd h (by simp)
      | cons d tail =>
        rw [h2] at h
        simp only at h
        split at h
        · cases h
          have s1 : List.Sublist (c :: rs) l := by
            rw [← h1]; exact List.dropWhile_sublist _
          have s3 : List.Sublist (d :: t) rs := by
            rw [← h2]; exact List.dropWhile_sublist _
          exact (((List.sublist_cons_self d t).trans s3).trans
            (List.sublist_cons_self c rs)).trans s1
        · cases h
    · cases h

/-- A successful regex match consumes at least the two parentheses: the
remainder is strictly shorter. -/
theorem tryMatch_length {l t : List Char} (h : tryMatch l = some t) :
    t.length < l.length := by
  unfold tryMatch at h
  cases h1 : l.dropWhile pySpace with
  | nil => rw [h1] at h; exact absurd h (by simp)
  | cons c rs =>
    rw [h1] at h
    simp only at h
    split at h
    · cases h2 : rs.dropWhile (· != ')') with
      | nil => rw [h2] at h; exact absurd h (by simp)
      | cons d tail =>
        rw [h2] at h
        simp only at h
        split at h
        · cases h
          have s1 : (c :: rs).length ≤ l.length := by
            rw [← h1]; exact (List.dropWhile_sublist _).length_le
          have s3 : (d :: t).length ≤ rs.length := by
            rw [← h2]; exact (List.dropWhile_sublist _).length_le
          simp only [List.length_cons] at s1 s3
          omega
        · cases h
    · cases h

/-- The fuel bound is irrelevant once it is at least the input length. -/
theorem subAllFuel_congr :
    ∀ (n m : Nat) (l : List Char), l.length ≤ n → l.length ≤ m →
      subAllFuel n l = subAllFuel m l := by
  intro n
  induction n with
  | zero =>
    intro m l hn _
    have : l = [] := List.length_eq_zero.mp (Nat.le_zero.mp hn)
    subst this
    rw [subAllFuel_nil, subAllFuel_nil]
  | succ n ih =>
    intro m l hn hm
    cases l with
    | nil => rw [subAllFuel_nil, subAllFuel_nil]
    | cons c cs =>
      cases m with
      | zero => simp at hm
      | succ m =>
        cases htm : tryMatch (c :: cs) with
        | some tail =>
          have hlt := tryMatch_length htm
          simp only [List.length_cons] at hn hm hlt
          simp only [subAllFuel_cons, htm]
          exact ih m tail (by omega) (by omega)
        | none =>
          simp only [List.length_cons] at hn hm
          simp only [subAllFuel_cons, htm]
          rw [ih m cs (by omega) (by omega)]

theorem subAll_eq_fuel {n : Nat} {l : List Char} (h : l.length ≤ n) :
    subAll l = subAllFuel n l :=
  subAllFuel_congr l.length n l le_rfl h

/-- The substituted string is a sublist of the input: `re.sub` only deletes. -/
theorem subAllFuel_sublist : ∀ (n : Nat) (l : List Char),
    List.Sublist (subAllFuel n l) l := by
  intro n
  induction n with
  | zero => intro l; exact List.Sublist.refl l
  | succ n ih =>
    intro l
    cases l with
    | nil => rw [subAllFuel_nil]
    | cons c cs =>
      cases htm : tryMatch (c :: cs) with
      | some tail =>
        simp only [subAllFuel_cons, htm]
        exact (ih tail).trans (tryMatch_sublist htm)
      | none =>
        simp only [subAllFuel_cons, htm]
        exact (ih cs).cons₂ c

/-- If a closing parenthesis occurs in `cs`, the greedy `[^)]*` scan stops
exactly at the first one. -/
theorem dropWhile_finds_rparen {cs : List Char} (h : ')' ∈ cs) :
    ∃ t, cs.dropWhile (· != ')') = ')' :: t := by
  induction cs with
  | nil => cases h
  | cons c cs ih =>
    by_cases hc : c = ')'
    · subst hc
      exact ⟨cs, by simp [List.dropWhile_cons]⟩
    · have hmem : ')' ∈ cs := by
        cases List.mem_cons.mp h with
        | inl h' => exact absurd h'.symm hc
        | inr h' => exact h'
      obtain ⟨t, ht⟩ := ih hmem
      exact ⟨t, by simp [List.dropWhile_cons, hc, ht]⟩

/-- A literal `'('` head with some `')'` later always matches the regex. -/
theorem tryMatch_lparen {cs : List Char} (h : ')' ∈ cs) :
    ∃ t, tryMatch ('(' :: cs) = some t := by
  obtain ⟨t, ht⟩ := dropWhile_finds_rparen h
  refine ⟨t, ?_⟩
  unfold tryMatch
  have h1 : ('(' :: cs).dropWhile pySpace = '(' :: cs := by
    simp [List.dropWhile_cons, pySpace]
  rw [h1]
  simp [ht]

/-- After substitution no `'('` is ever followed by a `')'`: every
parenthesized substring has been removed. -/
theorem subAllFuel_noPair : ∀ (n : Nat) (l : List Char), l.length ≤ n →
    ¬ List.Sublist ['(', ')'] (subAllFuel n l) := by
  intro n
  induction n with
  | zero =>
    intro l hn
    have : l = [] := List.length_eq_zero.mp (Nat.le_zero.mp hn)
    subst this
    rw [subAllFuel_nil]
    simp
  | succ n ih =>
    intro l hn
    cases l with
    | nil =>
      rw [subAllFuel_nil]
      simp
    | cons c cs =>
      simp only [List.length_cons] at hn
      cases htm : tryMatch (c :: cs) with
      | some tail =>
        have hlt := tryMatch_length htm
        simp only [List.length_cons] at hlt
        simp only [subAllFuel_cons, htm]
        exact ih tail (by omega)
      | none =>
        simp only [subAllFuel_cons, htm]
        intro hsub
        cases hsub with
        | cons a h' => exact ih cs (by omega) h'
        | cons₂ a h' =>
          have hr : ')' ∈ subAllFuel n cs := by
            have := h'.subset
            simp only [List.cons_subset, List.nil_subset, and_true] at this
            exact this
          have hrcs : ')' ∈ cs := (subAllFuel_sublist n cs).subset hr
          obtain ⟨t, ht⟩ := tryMatch_lparen hrcs
          rw [htm] at ht
          cases ht

/-- Stripping only drops characters: the stripped string is a sublist. -/
theorem pyStrip_sublist (l : List Char) : List.Sublist (pyStrip l) l := by
  unfold pyStrip
  have h1 : List.Sublist (l.dropWhile pySpace) l := List.dropWhile_sublist _
  have h2 : List.Sublist ((l.dropWhile pySpace).reverse.dropWhile pySpace)
      (l.dropWhile pySpace).reverse := List.dropWhile_sublist _
  have h3 := List.reverse_sublist.mpr h2
  rw [List.reverse_reverse] at h3
  exact h3.trans h1

/-- C2: `clean_chapter_title` removes every parenthesized substring —
after cleaning, no `'('` is ever followed by a `')'` — collapses the
whitespace in front of each removed span and trims the ends; in particular
`"Intro (draft)" ↦ "Intro"` and `"A (x) B (y)" ↦ "A B"`. -/
theorem clean_title_normalizer :
    clean_chapter_title "Intro (draft)" = "Intro" ∧
    clean_chapter_title "A (x) B (y)" = "A B" ∧
    ∀ s : String, ¬ List.Sublist ['(', ')'] (clean_chapter_title s).data := by
  refine ⟨by decide, by decide, ?_⟩
  intro s hsub
  exact subAllFuel_noPair s.data.length s.data le_rfl
    (hsub.trans (pyStrip_sublist (subAll s.data)))

/-- Witness for C2 at a concrete input with nested parentheses. -/
theorem clean_title_normalizer_witness :
    ¬ List.Sublist ['(', ')'] (clean_chapter_title "x ((a) b) y").data :=
  clean_title_normalizer.2.2 "x ((a) b) y"

theorem mainLoop_cons (dedup : Bool) (seen : List String) (i : Nat)
    (c : Chapter) (cs : List Chapter) :
    mainLoop dedup seen i (c :: cs) =
      if dedup then
        if clean_chapter_title (getTitle i c) ≠ "" ∧
            clean_chapter_title (getTitle i c) ∉ seen then
          ⟨i, c.start_time, c.end_time, getTitle i c⟩ ::
            mainLoop dedup (clean_chapter_title (getTitle i c) :: seen) (i + 1) cs
        else
          mainLoop dedup seen (i + 1) cs
      else
        ⟨i, c.start_time, c.end_time, getTitle i c⟩ ::
          mainLoop dedup seen (i + 1) cs := rfl

/-- With the flag off, the loop keeps every chapter and only resolves raw
titles. -/
theorem mainLoop_false_eq_resolveAll (seen : List String) :
    ∀ (i : Nat) (l : List Chapter), mainLoop false seen i l = resolveAll i l := by
  intro i l
  induction l generalizing i with
  | nil => rfl
  | cons c cs ih =>
    rw [mainLoop_cons]
    simp only [Bool.false_eq_true, if_false, resolveAll, ih]

/-- The loop's survivors form a sublist of the resolved input, in order. -/
theorem mainLoop_sublist_resolveAll (dedup : Bool) :
    ∀ (seen : List String) (i : Nat) (l : List Chapter),
      List.Sublist (mainLoop dedup seen i l) (resolveAll i l) := by
  intro seen i l
  induction l generalizing seen i with
  | nil => exact List.Sublist.refl _
  | cons c cs ih =>
    rw [mainLoop_cons]
    cases dedup with
    | false =>
      simp only [Bool.false_eq_true, if_false, resolveAll]
      exact (ih seen (i + 1)).cons₂ _
    | true =>
      simp only [if_true, resolveAll]
      by_cases hk : clean_chapter_title (getTitle i c) ≠ "" ∧
          clean_chapter_title (getTitle i c) ∉ seen
      · rw [if_pos hk]
        exact (ih _ (i + 1)).cons₂ _
      · rw [if_neg hk]
        exact (ih seen (i + 1)).cons _

/-- C8: for both values of the dedup flag the survivor list is a subsequence
of the (fallback-title-resolved) input in original relative order; with the
flag off, the output is exactly the input with fallback titles resolved. -/
theorem dedupe_order_preserving (dedup : Bool) (chapters : List Chapter) :
    List.Sublist (dedupeChapters dedup chapters) (resolveAll 0 chapters) ∧
    dedupeChapters false chapters = resolveAll 0 chapters :=
  ⟨mainLoop_sublist_resolveAll dedup [] 0 chapters,
   mainLoop_false_eq_resolveAll [] 0 chapters⟩

/-- Every survivor of the dedup loop has a non-empty cleaned title that is
outside the initial `seen` set, and survivors have pairwise distinct cleaned
titles. -/
theorem mainLoop_true_clean_props :
    ∀ (l : List Chapter) (seen : List String) (i : Nat),
      (∀ d ∈ mainLoop true seen i l,
        clean_chapter_title d.title ≠ "" ∧ clean_chapter_title d.title ∉ seen) ∧
      (mainLoop true seen i l).Pairwise
        (fun d e => clean_chapter_title d.title ≠ clean_chapter_title e.title) := by
  intro l
  induction l with
  | nil =>
    intro seen i
    exact ⟨fun d hd => absurd hd (List.not_mem_nil d), List.Pairwise.nil⟩
  | cons c cs ih =>
    intro seen i
    rw [mainLoop_cons]
    simp only [if_true]
    by_cases hk : clean_chapter_title (getTitle i c) ≠ "" ∧
        clean_chapter_title (getTitle i c) ∉ seen
    · rw [if_pos hk]
      obtain ⟨ihmem, ihpw⟩ := ih (clean_chapter_title (getTitle i c) :: seen) (i + 1)
      constructor
      · intro d hd
        cases List.mem_cons.mp hd with
        | inl h => subst h; exact hk
        | inr h =>
          obtain ⟨h1, h2⟩ := ihmem d h
          exact ⟨h1, fun hs => h2 (List.mem_cons.mpr (Or.inr hs))⟩
      · refine List.Pairwise.cons ?_ ihpw
        intro e he
        have h2 := (ihmem e he).2
        intro heq
        exact h2 (List.mem_cons.mpr (Or.inl heq.symm))
    · rw [if_neg hk]
      exact ih seen (i + 1)

/-- A list of survivor entries whose cleaned titles are non-empty, unseen and
pairwise distinct passes the dedup loop untouched (up to the positional index
recorded in each entry). -/
theorem mainLoop_true_fixed :
    ∀ (ds : List DChap) (seen : List String) (i : Nat),
      (∀ d ∈ ds, clean_chapter_title d.title ≠ "" ∧
        clean_chapter_title d.title ∉ seen) →
      ds.Pairwise (fun d e => clean_chapter_title d.title ≠ clean_chapter_title e.title) →
      (mainLoop true seen i (ds.map toChapter)).map toChapter = ds.map toChapter := by
  intro ds
  induction ds with
  | nil => intro seen i _ _; rfl
  | cons d ds ih =>
    intro seen i hmem hpw
    have htitle : getTitle i (toChapter d) = d.title := by
      simp [getTitle, toChapter, List.lookup]
    simp only [List.map_cons]
    rw [mainLoop_cons]
    simp only [if_true, htitle]
    have hd := hmem d (List.mem_cons_self d ds)
    rw [if_pos hd]
    obtain ⟨hhead, htail⟩ := List.pairwise_cons.mp hpw
    simp only [List.map_cons]
    refine List.cons_eq_cons.mpr ⟨rfl, ?_⟩
    exact ih (clean_chapter_title d.title :: seen) (i + 1)
        (fun e he => ⟨(hmem e (List.mem_cons.mpr (Or.inr he))).1,
          fun hs => by
            cases List.mem_cons.mp hs with
            | inl h => exact hhead e he h.symm
            | inr h => exact (hmem e (List.mem_cons.mpr (Or.inr he))).2 h⟩)
        htail

theorem cleanAtFrom_zero (i : Nat) (c : Chapter) (cs : List Chapter) :
    cleanAtFrom i (c :: cs) 0 = clean_chapter_title (getTitle i c) := rfl

theorem cleanAtFrom_succ (i : Nat) (c : Chapter) (cs : List Chapter) (m : Nat) :
    cleanAtFrom i (c :: cs) (m + 1) = cleanAtFrom (i + 1) cs m := by
  simp only [cleanAtFrom, List.get?_cons_succ]
  rw [show i + (m + 1) = i + 1 + m from by omega]

/-- Index `j` survives the dedup loop started at base index `i` with seen set
`seen` iff the chapter at offset `m = j - i` has a non-empty cleaned title
that is neither in `seen` nor equal to the cleaned title of any earlier
chapter of the walked segment. -/
theorem mainLoop_true_mem_iff :
    ∀ (l : List Chapter) (seen : List String) (i j : Nat),
      (∃ d ∈ mainLoop true seen i l, d.idx = j) ↔
        ∃ m, m < l.length ∧ j = i + m ∧ cleanAtFrom i l m ≠ "" ∧
          cleanAtFrom i l m ∉ seen ∧
          ∀ m', m' < m → cleanAtFrom i l m' ≠ cleanAtFrom i l m := by
  intro l
  induction l with
  | nil =>
    intro seen i j
    constructor
    · rintro ⟨d, hd, _⟩
      exact absurd hd (List.not_mem_nil d)
    · rintro ⟨m, hm, _⟩
      exact absurd hm (Nat.not_lt_zero m)
  | cons c cs ih =>
    intro seen i j
    rw [mainLoop_cons]
    simp only [if_true]
    by_cases hk : clean_chapter_title (getTitle i c) ≠ "" ∧
        clean_chapter_title (getTitle i c) ∉ seen
    · rw [if_pos hk]
      constructor
      · rintro ⟨d, hd, hidx⟩
        cases List.mem_cons.mp hd with
        | inl h =>
          subst h
          refine ⟨0, Nat.succ_pos _, by simpa using hidx.symm, ?_, ?_, ?_⟩
          · rw [cleanAtFrom_zero]; exact hk.1
          · rw [cleanAtFrom_zero]; exact hk.2
          · intro m' hm'; omega
        | inr h =>
          obtain ⟨m, hmlen, hj, h1, h2, h3⟩ :=
            (ih (clean_chapter_title (getTitle i c) :: seen) (i + 1) j).mp ⟨d, h, hidx⟩
          refine ⟨m + 1, by simp only [List.length_cons]; omega, by omega, ?_, ?_, ?_⟩
          · rw [cleanAtFrom_succ]; exact h1
          · rw [cleanAtFrom_succ]
            intro hs
            exact h2 (List.mem_cons.mpr (Or.inr hs))
          · intro m' hm'
            cases m' with
            | zero =>
              rw [cleanAtFrom_zero, cleanAtFrom_succ]
              intro heq
              exact h2 (List.mem_cons.mpr (Or.inl heq.symm))
            | succ m'' =>
              rw [cleanAtFrom_succ, cleanAtFrom_succ]
              exact h3 m'' (by omega)
      · rintro ⟨m, hmlen, hj, h1, h2, h3⟩
        cases m with
        | zero =>
          exact ⟨⟨i, c.start_time, c.end_time, getTitle i c⟩,
            List.mem_cons_self _ _, by show i = j; omega⟩
        | succ m =>
          have h1' : cleanAtFrom (i + 1) cs m ≠ "" := by
            rwa [cleanAtFrom_succ] at h1
          have h2' : cleanAtFrom (i + 1) cs m ∉
              clean_chapter_title (getTitle i c) :: seen := by
            intro hs
            cases List.mem_cons.mp hs with
            | inl h =>
              have := h3 0 (Nat.succ_pos m)
              rw [cleanAtFrom_zero, cleanAtFrom_succ] at this
              exact this h.symm
            | inr h =>
              rw [cleanAtFrom_succ] at h2
              exact h2 h
          have h3' : ∀ m', m' < m →
              cleanAtFrom (i + 1) cs m' ≠ cleanAtFrom (i + 1) cs m := by
            intro m' hm'
            have := h3 (m' + 1) (by omega)
            rwa [cleanAtFrom_succ, cleanAtFrom_succ] at this
          obtain ⟨d, hd, hidx⟩ :=
            (ih (clean_chapter_title (getTitle i c) :: seen) (i + 1) j).mpr
              ⟨m, by simp only [List.length_cons] at hmlen; omega, by omega,
                h1', h2', h3'⟩
          exact ⟨d, List.mem_cons.mpr (Or.inr hd), hidx⟩
    · rw [if_neg hk]
      constructor
      · rintro ⟨d, hd, hidx⟩
        obtain ⟨m, hmlen, hj, h1, h2, h3⟩ := (ih seen (i + 1) j).mp ⟨d, hd, hidx⟩
        refine ⟨m + 1, by simp only [List.length_cons]; omega, by omega, ?_, ?_, ?_⟩
        · rw [cleanAtFrom_succ]; exact h1
        · rw [cleanAtFrom_succ]; exact h2
        · intro m' hm'
          cases m' with
          | zero =>
            rw [cleanAtFrom_zero, cleanAtFrom_succ]
            by_cases hct0 : clean_chapter_title (getTitle i c) = ""
            · rw [hct0]
              exact fun heq => h1 heq.symm
            · have hseen : clean_chapter_title (getTitle i c) ∈ seen := by
                by_contra hss
                exact hk ⟨hct0, hss⟩
              exact fun heq => h2 (heq ▸ hseen)
          | succ m'' =>
            rw [cleanAtFrom_succ, cleanAtFrom_succ]
            exact h3 m'' (by omega)
      · rintro ⟨m, hmlen, hj, h1, h2, h3⟩
        cases m with
        | zero =>
          rw [cleanAtFrom_zero] at h1 h2
          exact absurd ⟨h1, h2⟩ hk
        | succ m =>
          refine (ih seen (i + 1) j).mpr
            ⟨m, by simp only [List.length_cons] at hmlen; omega, by omega, ?_, ?_, ?_⟩
          · rwa [cleanAtFrom_succ] at h1
          · rwa [cleanAtFrom_succ] at h2
          · intro m' hm'
            have := h3 (m' + 1) (by omega)
            rwa [cleanAtFrom_succ, cleanAtFrom_succ] at this

/-- C1: with deduplication enabled, index `j` of the input is kept iff its
normalized title is non-empty and no earlier chapter of the input normalizes
to the same title (equivalently: the title has not been seen in an earlier
kept chapter — the seen set contains exactly the cleaned titles of earlier
kept chapters, and the first occurrence of a non-empty cleaned title is always
kept).  Chapters with an empty normalized title are always dropped. -/
theorem dedup_keep_iff (l : List Chapter) (j : Nat) :
    (∃ d ∈ dedupeChapters true l, d.idx = j) ↔
      (j < l.length ∧ cleanAtFrom 0 l j ≠ "" ∧
        ∀ k, k < j → cleanAtFrom 0 l k ≠ cleanAtFrom 0 l j) := by
  unfold dedupeChapters
  rw [mainLoop_true_mem_iff l [] 0 j]
  constructor
  · rintro ⟨m, hm, hj, h1, _, h3⟩
    have hjm : j = m := by omega
    subst hjm
    exact ⟨hm, h1, fun k hk => h3 k hk⟩
  · rintro ⟨hj, h1, h3⟩
    exact ⟨j, hj, by omega, h1, List.not_mem_nil _, fun k hk => h3 k hk⟩

/-- Witness for C1: in a concrete list with a duplicate and an
all-parenthetical title, index 0 is kept while indices 1 and 2 are not. -/
theorem dedup_keep_iff_witness :
    (∃ d ∈ dedupeChapters true
      [⟨0, 1, [("title", "A (x)")]⟩, ⟨1, 2, [("title", "A")]⟩,
       ⟨2, 3, [("title", "(y)")]⟩], d.idx = 0) ∧
    ¬ (∃ d ∈ dedupeChapters true
      [⟨0, 1, [("title", "A (x)")]⟩, ⟨1, 2, [("title", "A")]⟩,
       ⟨2, 3, [("title", "(y)")]⟩], d.idx = 1) := by
  constructor
  · exact (dedup_keep_iff _ 0).mpr (by decide)
  · intro h
    have := (dedup_keep_iff _ 1).mp h
    revert this
    decide

/-- C7: deduplication with the flag enabled is idempotent on the spec's
chapter-level `dedupe`. -/
theorem dedupe_idempotent (chapters : List Chapter) :
    dedupe true (dedupe true chapters) = dedupe true chapters := by
  unfold dedupe dedupeChapters
  obtain ⟨hmem, hpw⟩ := mainLoop_true_clean_props chapters [] 0
  exact mainLoop_true_fixed (mainLoop true [] 0 chapters) [] 0
    (fun d hd => ⟨(hmem d hd).1, List.not_mem_nil _⟩) hpw

/-- Evaluate `Nat.clog 10` at concrete points: `⌈log₁₀ n⌉ = k` when
`10 ^ (k-1) < n ≤ 10 ^ k` and `0 < k`. -/
theorem clog10_eq_of (k n : Nat) (h0 : 0 < k)
    (hlo : 10 ^ (k - 1) < n) (hhi : n ≤ 10 ^ k) : Nat.clog 10 n = k := by
  refine le_antisymm ((Nat.le_pow_iff_clog_le (by norm_num)).mp hhi) ?_
  have h := (Nat.pow_lt_iff_lt_clog (by norm_num)).mp hlo
  omega

theorem numberedTitles_get? (s : List DChap) (i : Nat) :
    (numberedTitles s).get? i =
      (s.get? i).map (fun d => numberedTitle (mainNumDigits s) i d.title) := by
  unfold numberedTitles
  rw [List.get?_map, List.get?_enum]
  cases s.get? i <;> rfl

/-- C5: every survivor's numbered display title is padded with the single
batch-level width `⌈log₁₀ (count + 1)⌉`; at the boundaries, 9 survivors get
width 1 and 10 survivors get width 2. -/
theorem numbering_width_formula (b : Bool) (l : List Chapter) :
    (∀ i, (numberedTitles (dedupeChapters b l)).get? i =
      ((dedupeChapters b l).get? i).map
        (fun d => numberedTitle
          (Nat.clog 10 ((dedupeChapters b l).length + 1)) i d.title)) ∧
    (∀ s : List DChap, s.length = 9 → mainNumDigits s = 1) ∧
    (∀ s : List DChap, s.length = 10 → mainNumDigits s = 2) := by
  refine ⟨fun i => numberedTitles_get? _ i, ?_, ?_⟩
  · intro s hs
    unfold mainNumDigits
    rw [hs]
    exact clog10_eq_of 1 10 (by norm_num) (by norm_num) (by norm_num)
  · intro s hs
    unfold mainNumDigits
    rw [hs]
    exact clog10_eq_of 2 11 (by norm_num) (by norm_num) (by norm_num)

/-- Witness for C5 at a concrete 9-survivor and 10-survivor batch. -/
theorem numbering_width_formula_witness :
    mainNumDigits (List.replicate 9 (⟨0, 0, 1, "x"⟩ : DChap)) = 1 ∧
    mainNumDigits (List.replicate 10 (⟨0, 0, 1, "x"⟩ : DChap)) = 2 :=
  ⟨(numbering_width_formula true []).2.1 _ (by decide),
   (numbering_width_formula true []).2.2 _ (by decide)⟩

/-- C6 is false on the code: a batch of exactly 9 surviving chapters gets
width 1, not 2 — its sequence numbers are unpadded single digits. -/
theorem nine_survivors_counterexample :
    (dedupeChapters true chapters9).length = 9 ∧
    mainNumDigits (dedupeChapters true chapters9) = 1 ∧
    mainNumDigits (dedupeChapters true chapters9) ≠ 2 ∧
    numberedTitles (dedupeChapters true chapters9) =
      ["1 - T1", "2 - T2", "3 - T3", "4 - T4", "5 - T5", "6 - T6", "7 - T7",
       "8 - T8", "9 - T9"] := by
  have hlen : (dedupeChapters true chapters9).length = 9 := by decide
  have hw : mainNumDigits (dedupeChapters true chapters9) = 1 := by
    unfold mainNumDigits
    rw [hlen]
    exact clog10_eq_of 1 10 (by norm_num) (by norm_num) (by norm_num)
  refine ⟨hlen, hw, by rw [hw]; decide, ?_⟩
  unfold numberedTitles
  rw [hw]
  decide

/-- C6 amended: with the `+1` in the width formula, a batch of exactly 9
surviving chapters still receives 1-digit sequence numbers; 2-digit padding
starts at exactly 10 survivors. -/
theorem nine_survivors_width_amended (s : List DChap) :
    (s.length = 9 → mainNumDigits s = 1) ∧
    (s.length = 10 → mainNumDigits s = 2) := by
  constructor
  · intro hs
    unfold mainNumDigits
    rw [hs]
    exact clog10_eq_of 1 10 (by norm_num) (by norm_num) (by norm_num)
  · intro hs
    unfold mainNumDigits
    rw [hs]
    exact clog10_eq_of 2 11 (by norm_num) (by norm_num) (by norm_num)

/-- Witness for the amended C6. -/
theorem nine_survivors_width_amended_witness :
    mainNumDigits (List.replicate 9 (⟨1, 0, 1, "w"⟩ : DChap)) = 1 ∧
    mainNumDigits (List.replicate 10 (⟨1, 0, 1, "w"⟩ : DChap)) = 2 :=
  ⟨(nine_survivors_width_amended _).1 (by decide),
   (nine_survivors_width_amended _).2 (by decide)⟩

/-- C9: a chapter without a title tag gets the synthesized raw title
`"Chapter_" ++ zero-padded (index+1)` before normalization; concretely, the
untitled chapter at 0-based index 2 resolves to `"Chapter_003"`, and the
resolution feeds the selection loop identically for both dedup flags. -/
theorem fallback_title_rule :
    (∀ (i : Nat) (c : Chapter), c.tags.lookup "title" = none →
      getTitle i c = "Chapter_" ++ padNum 3 (i + 1)) ∧
    getTitle 2 ⟨0, 1, []⟩ = "Chapter_003" ∧
    dedupeChapters true
        [⟨0, 1, [("title", "A")]⟩, ⟨1, 2, [("title", "A")]⟩, ⟨2, 3, []⟩] =
      [⟨0, 0, 1, "A"⟩, ⟨2, 2, 3, "Chapter_003"⟩] ∧
    dedupeChapters false
        [⟨0, 1, [("title", "A")]⟩, ⟨1, 2, [("title", "A")]⟩, ⟨2, 3, []⟩] =
      [⟨0, 0, 1, "A"⟩, ⟨1, 1, 2, "A"⟩, ⟨2, 2, 3, "Chapter_003"⟩] := by
  refine ⟨?_, by decide, by decide, by decide⟩
  intro i c h
  unfold getTitle
  rw [h]
  rfl

/-- Witness for C9 at an untitled chapter carrying an unrelated tag. -/
theorem fallback_title_rule_witness :
    getTitle 3 ⟨5, 6, [("artist", "someone")]⟩ = "Chapter_" ++ padNum 3 (3 + 1) :=
  fallback_title_rule.1 3 ⟨5, 6, [("artist", "someone")]⟩ (by decide)

/-- C3 is a code bug: the `output_args` dict literal repeats the key
`metadata` three times, so only the last entry (`album=...`) survives —
the title and artist metadata the spec promises are silently dropped. -/
theorem process_chapter_metadata_album_only :
    outputArgs .mp3 "Intro" [("artist", "Art"), ("album", "Alb")] 44100 false =
      [("ar", "44100"), ("metadata", "album=Alb"), ("acodec", "libmp3lame"),
        ("ab", "128k"), ("q", "2")] ∧
    (outputArgs .mp3 "Intro" [("artist", "Art"), ("album", "Alb")] 44100
        false).lookup "metadata" = some "album=Alb" ∧
    ("metadata", "title=Intro") ∉
      outputArgs .mp3 "Intro" [("artist", "Art"), ("album", "Alb")] 44100 false ∧
    ("metadata", "artist=Art") ∉
      outputArgs .mp3 "Intro" [("artist", "Art"), ("album", "Alb")] 44100 false :=
  ⟨by decide, by decide, by decide, by decide⟩

theorem countOk_add_countErr (l : List (Except String Unit)) :
    countOk l + countErr l = l.length := by
  induction l with
  | nil => rfl
  | cons r rs ih =>
    cases r <;> simp [countOk, countErr, List.filter_cons] at ih ⊢ <;> omega

/-- C4 is partly false on the code: every submitted job does run (one outcome
per survivor, failures never cancel siblings, and successes plus failures
account for every submitted job), but no failure is ever recorded or returned
to the caller — `main` never consumes the `executor.map` iterator. -/
theorem scheduler_isolation_amended (chapters : List Chapter) (folder : String)
    (dedup : Bool) (extract : DChap → Except String Unit) :
    (runMain chapters folder false dedup extract).executed =
      (dedupeChapters dedup chapters).map extract ∧
    countOk (runMain chapters folder false dedup extract).executed +
      countErr (runMain chapters folder false dedup extract).executed =
      (dedupeChapters dedup chapters).length ∧
    (runMain chapters folder false dedup extract).collectedFailures = [] := by
  by_cases h : chapters.length = 0
  · have hnil : chapters = [] := List.length_eq_zero.mp h
    subst hnil
    exact ⟨rfl, rfl, rfl⟩
  · unfold runMain
    rw [if_neg h]
    simp only [Bool.false_eq_true, if_false]
    refine ⟨by trivial, ?_, by trivial⟩
    rw [countOk_add_countErr, List.length_map]

/-- Counterexample to C4 as stated: a run with one injected failure executes
the job but returns an empty failure collection to the caller. -/
theorem scheduler_failures_not_collected :
    (runMain [⟨0, 1, [("title", "A")]⟩] "out" false true
      (fun _ => Except.error "boom")).executed = [Except.error "boom"] ∧
    (runMain [⟨0, 1, [("title", "A")]⟩] "out" false true
      (fun _ => Except.error "boom")).collectedFailures = [] :=
  ⟨rfl, rfl⟩

/-- C10: past the precondition checks, `main` always reports the raw
pre-deduplication chapter count as successfully processed; the echoed lines
are identical for any two injected extraction behaviours, and no failure is
surfaced. -/
theorem main_summary_independent (chapters : List Chapter) (folder : String)
    (dedup : Bool) (e₁ e₂ : DChap → Except String Unit)
    (h : chapters ≠ []) :
    (runMain chapters folder false dedup e₁).echoed.head? =
      some ("Successfully processed " ++ toString chapters.length ++
        " chapters.") ∧
    (runMain chapters folder false dedup e₁).echoed =
      (runMain chapters folder false dedup e₂).echoed ∧
    (runMain chapters folder false dedup e₁).collectedFailures = [] := by
  have hlen : ¬ chapters.length = 0 := fun h0 => h (List.length_eq_zero.mp h0)
  unfold runMain
  rw [if_neg hlen, if_neg hlen]
  simp only [Bool.false_eq_true, if_false]
  exact ⟨by trivial, by trivial, by trivial⟩

/-- Witness for C10: one chapter, dedup on, with a succeeding and a failing
engine. -/
theorem main_summary_independent_witness :
    (runMain [⟨0, 1, []⟩] "out" false true (fun _ => Except.ok ())).echoed.head? =
      some ("Successfully processed " ++
        toString ([(⟨0, 1, []⟩ : Chapter)].length) ++ " chapters.") :=
  (main_summary_independent [⟨0, 1, []⟩] "out" true (fun _ => Except.ok ())
    (fun _ => Except.error "x") (by decide)).1

end EasyM4b
